import Mathlib

/-!
Shallow embedding of the psf2 crate (src/lib.rs), a parser for version-2
PC Screen Fonts, together with proofs about its header validation, glyph
lookup and bidirectional row/pixel iterators.

Bytes are modelled as natural numbers; buffers as lists of naturals.
All 32-bit unsigned arithmetic of the source is made explicit with
checks against U32MAX (for the checked operations of construction) and
with reduction modulo 2 to the 32 (for the wrapping arithmetic of glyph
lookup).  Iterators of the source mutate self and return an option; here
each step function returns an optional pair of the produced item and the
successor state.
-/

set_option maxHeartbeats 1000000
set_option maxRecDepth 4000

deriving instance DecidableEq for Except

namespace Psf2

/-- Little-endian 32-bit read of four bytes starting at offset off,
mirroring u32 from_le_bytes on data[off..off+4]. -/
def u32le (data : List Nat) (off : Nat) : Nat :=
  data.getD off 0 + 256 * data.getD (off + 1) 0 + 256 ^ 2 * data.getD (off + 2) 0 +
    256 ^ 3 * data.getD (off + 3) 0

/-- Largest value of a 32-bit unsigned integer. -/
def U32MAX : Nat := 2 ^ 32 - 1

/-- Number of values of a 32-bit unsigned integer, the modulus of
wrapping u32 arithmetic. -/
def U32 : Nat := 2 ^ 32

/-- The fixed PSF2 magic constant, bytes 0x72 0xb5 0x4a 0x86. -/
def magicBytes : List Nat := [0x72, 0xb5, 0x4a, 0x86]

/-- ParseError from src/lib.rs: why data might not be a valid PSF2 font. -/
inductive ParseError where
  | UnexpectedEnd
  | BadMagic
deriving DecidableEq

/-- Font from src/lib.rs: a wrapper around the raw byte buffer. -/
structure Font where
  data : List Nat
deriving DecidableEq

/-- Font.headersize: little-endian u32 at bytes 8..12. -/
def Font.headersize (f : Font) : Nat := u32le f.data 8

/-- Font.flags: little-endian u32 at bytes 12..16. -/
def Font.flags (f : Font) : Nat := u32le f.data 12

/-- Font.length: little-endian u32 at bytes 16..20 (number of glyphs). -/
def Font.length (f : Font) : Nat := u32le f.data 16

/-- Font.charsize: little-endian u32 at bytes 20..24 (bytes per glyph). -/
def Font.charsize (f : Font) : Nat := u32le f.data 20

/-- Font.height: little-endian u32 at bytes 24..28 (rows per glyph). -/
def Font.height (f : Font) : Nat := u32le f.data 24

/-- Font.width: little-endian u32 at bytes 28..32 (columns per glyph). -/
def Font.width (f : Font) : Nat := u32le f.data 28

/-- Font.new from src/lib.rs: header presence check, magic check, then
overflow-checked computation of the glyph table end and the final bounds
check.  checked_mul and checked_add fail exactly when the exact result
exceeds U32MAX. -/
def Font.new (data : List Nat) : Except ParseError Font :=
  if data.length < 32 then Except.error ParseError.UnexpectedEnd
  else if data.take 4 ≠ magicBytes then Except.error ParseError.BadMagic
  else
    let f : Font := ⟨data⟩
    if U32MAX < f.charsize * f.length then Except.error ParseError.UnexpectedEnd
    else if U32MAX < f.headersize + f.charsize * f.length then
      Except.error ParseError.UnexpectedEnd
    else if data.length < f.headersize + f.charsize * f.length then
      Except.error ParseError.UnexpectedEnd
    else Except.ok f

/-- Glyph from src/lib.rs: the not-yet-consumed span of the glyph bitmap
plus the pixel width. -/
structure Glyph where
  data : List Nat
  width : Nat
deriving DecidableEq

/-- GlyphRow from src/lib.rs: one row of bytes, the forward bit cursor,
and the (shrinking) width bound. -/
structure GlyphRow where
  data : List Nat
  bit : Nat
  width : Nat
deriving DecidableEq

/-- The BITS table from src/lib.rs: masks for bit positions 0..7,
most significant bit first. -/
def BITS : List Nat := [1 <<< 7, 1 <<< 6, 1 <<< 5, 1 <<< 4, 1 <<< 3, 1 <<< 2, 1 <<< 1, 1 <<< 0]

/-- Font.get_index from src/lib.rs.  The offset arithmetic is ordinary
wrapping u32 arithmetic (reduction mod 2 to the 32); the slice index
operation data.get(offset..stop) yields a value exactly when
offset ≤ stop and stop ≤ data length. -/
def Font.get_index (f : Font) (i : Nat) : Option Glyph :=
  let offset := (f.headersize + i * f.charsize) % U32
  let stop := (offset + f.charsize) % U32
  if offset ≤ stop ∧ stop ≤ f.data.length then
    some ⟨(f.data.drop offset).take (stop - offset), f.width⟩
  else none

/-- Font.get_ascii from src/lib.rs: lookup by ASCII code, delegating to
get_index. -/
def Font.get_ascii (f : Font) (c : Nat) : Option Glyph := f.get_index c

/-- Iterator next for Glyph from src/lib.rs: take ceil(width/8) bytes
off the front of the remaining span as the next row. -/
def Glyph.next (g : Glyph) : Option (GlyphRow × Glyph) :=
  let advance := (g.width + 7) / 8
  if g.data.length < advance then none
  else some (⟨g.data.take advance, 0, g.width⟩, ⟨g.data.drop advance, g.width⟩)

/-- DoubleEndedIterator next_back for Glyph from src/lib.rs: take
ceil(width/8) bytes off the back of the remaining span. -/
def Glyph.next_back (g : Glyph) : Option (GlyphRow × Glyph) :=
  let advance := (g.width + 7) / 8
  if g.data.length < advance then none
  else some (⟨g.data.drop (g.data.length - advance), 0, g.width⟩,
             ⟨g.data.take (g.data.length - advance), g.width⟩)

/-- ExactSizeIterator len for Glyph, exactly as written in src/lib.rs:
data.len() / self.width (note: division by width, not by the row byte
count; Nat division by zero is zero where the source would panic). -/
def Glyph.len (g : Glyph) : Nat := g.data.length / g.width

/-- Iterator next for GlyphRow from src/lib.rs: test the bit at the
forward cursor and advance it.  The unchecked byte read is modelled
with getD, defaulting to 0 out of bounds. -/
def GlyphRow.next (r : GlyphRow) : Option (Bool × GlyphRow) :=
  if r.width ≤ r.bit then none
  else
    let byte := r.data.getD (r.bit / 8) 0
    some ((byte &&& BITS.getD (r.bit % 8) 0) != 0, ⟨r.data, r.bit + 1, r.width⟩)

/-- DoubleEndedIterator next_back for GlyphRow from src/lib.rs: test the
bit just below the width bound and shrink the bound. -/
def GlyphRow.next_back (r : GlyphRow) : Option (Bool × GlyphRow) :=
  if r.width ≤ r.bit then none
  else
    let b := r.width - 1
    let byte := r.data.getD (b / 8) 0
    some ((byte &&& BITS.getD (b % 8) 0) != 0, ⟨r.data, r.bit, b⟩)

/-- ExactSizeIterator len for GlyphRow from src/lib.rs: width - bit
(Nat subtraction; the reachable-state invariant bit ≤ width makes this
the same as the usize subtraction of the source). -/
def GlyphRow.len (r : GlyphRow) : Nat := r.width - r.bit

/-- The boolean produced for bit position i of a row with bytes d:
byte i / 8 masked with BITS at i % 8, as in GlyphRow next. -/
def decodeBit (d : List Nat) (i : Nat) : Bool :=
  (d.getD (i / 8) 0 &&& BITS.getD (i % 8) 0) != 0

/-- Forward traversal of a row to exhaustion, with explicit fuel.
Each productive step lowers width - bit by one, so fuel width - bit is
always enough. -/
def GlyphRow.forwardListAux : Nat → GlyphRow → List Bool
  | 0, _ => []
  | fuel + 1, r =>
    match r.next with
    | none => []
    | some (b, r') => b :: GlyphRow.forwardListAux fuel r'

/-- Forward traversal of a row to exhaustion. -/
def GlyphRow.forwardList (r : GlyphRow) : List Bool :=
  GlyphRow.forwardListAux (r.width - r.bit) r

/-- Backward traversal of a row to exhaustion, with explicit fuel. -/
def GlyphRow.backwardListAux : Nat → GlyphRow → List Bool
  | 0, _ => []
  | fuel + 1, r =>
    match r.next_back with
    | none => []
    | some (b, r') => b :: GlyphRow.backwardListAux fuel r'

/-- Backward traversal of a row to exhaustion. -/
def GlyphRow.backwardList (r : GlyphRow) : List Bool :=
  GlyphRow.backwardListAux (r.width - r.bit) r

/-- Run an interleaved sequence of steps on a row: true means a forward
step, false a backward step.  Returns the final state, the values
produced by forward steps in production order, and the values produced
by backward steps in production order.  A step on an exhausted view
produces nothing and leaves the state unchanged, as in the source. -/
def GlyphRow.runSteps : GlyphRow → List Bool → GlyphRow × List Bool × List Bool
  | r, [] => (r, [], [])
  | r, true :: rest =>
    match r.next with
    | none => GlyphRow.runSteps r rest
    | some (b, r') =>
      let out := GlyphRow.runSteps r' rest
      (out.1, b :: out.2.1, out.2.2)
  | r, false :: rest =>
    match r.next_back with
    | none => GlyphRow.runSteps r rest
    | some (b, r') =>
      let out := GlyphRow.runSteps r' rest
      (out.1, out.2.1, b :: out.2.2)

/-- Forward traversal of a glyph with explicit fuel (the iterator is
not terminating when width = 0, so fuel is essential). -/
def Glyph.forwardRows : Nat → Glyph → List GlyphRow
  | 0, _ => []
  | fuel + 1, g =>
    match g.next with
    | none => []
    | some (row, g') => row :: Glyph.forwardRows fuel g'

/-- Backward traversal of a glyph with explicit fuel. -/
def Glyph.backwardRows : Nat → Glyph → List GlyphRow
  | 0, _ => []
  | fuel + 1, g =>
    match g.next_back with
    | none => []
    | some (row, g') => row :: Glyph.backwardRows fuel g'

/-- Run an interleaved sequence of steps on a glyph: true means a
forward step, false a backward step.  Returns the final state, the rows
produced forward, and the rows produced backward, each in production
order. -/
def Glyph.runSteps : Glyph → List Bool → Glyph × List GlyphRow × List GlyphRow
  | g, [] => (g, [], [])
  | g, true :: rest =>
    match g.next with
    | none => Glyph.runSteps g rest
    | some (row, g') =>
      let out := Glyph.runSteps g' rest
      (out.1, row :: out.2.1, out.2.2)
  | g, false :: rest =>
    match g.next_back with
    | none => Glyph.runSteps g rest
    | some (row, g') =>
      let out := Glyph.runSteps g' rest
      (out.1, out.2.1, row :: out.2.2)

/-- Modelled from the claim wording for the round-trip property: one
byte of the most-significant-bit-first packing of a boolean sequence,
zero padded past the end of the sequence. -/
def packByte (l : List Bool) (j : Nat) : Nat :=
  (if l.getD (8 * j) false then 128 else 0) +
  (if l.getD (8 * j + 1) false then 64 else 0) +
  (if l.getD (8 * j + 2) false then 32 else 0) +
  (if l.getD (8 * j + 3) false then 16 else 0) +
  (if l.getD (8 * j + 4) false then 8 else 0) +
  (if l.getD (8 * j + 5) false then 4 else 0) +
  (if l.getD (8 * j + 6) false then 2 else 0) +
  (if l.getD (8 * j + 7) false then 1 else 0)

/-- Modelled from the claim wording: pack a sequence of booleans into
bytes most-significant-bit-first, zero padded to the next byte
boundary. -/
def packRow (l : List Bool) : List Nat :=
  (List.range ((l.length + 7) / 8)).map (packByte l)

/-- Row number i of a glyph bitmap d with pixel width w: the i-th chunk
of ceil(w/8) bytes, with forward cursor 0. -/
def rowAt (d : List Nat) (w i : Nat) : GlyphRow :=
  ⟨(d.drop (i * ((w + 7) / 8))).take ((w + 7) / 8), 0, w⟩

/-- The concrete 34-byte buffer of the specification scenario: magic,
version 0, headersize 32, flags 0, length 1, charsize 2, height 2,
width 1, then glyph bytes 128 and 0. -/
def demoBuf : List Nat :=
  [0x72, 0xb5, 0x4a, 0x86, 0, 0, 0, 0, 32, 0, 0, 0, 0, 0, 0, 0,
   1, 0, 0, 0, 2, 0, 0, 0, 2, 0, 0, 0, 1, 0, 0, 0, 128, 0]

/-- A 32-byte buffer whose magic is wrong and whose length and charsize
fields are both 0xFFFFFFFF, so that their product overflows u32. -/
def badMagicOverflowBuf : List Nat :=
  [0, 0, 0, 0, 0, 0, 0, 0, 0, 0, 0, 0, 0, 0, 0, 0,
   255, 255, 255, 255, 255, 255, 255, 255, 0, 0, 0, 0, 0, 0, 0, 0]

/-- A valid 34-byte font buffer with one glyph of one byte followed by
one trailing byte beyond the glyph table: magic, version 0,
headersize 32, flags 0, length 1, charsize 1, height 1, width 1,
glyph byte 255, trailing byte 170. -/
def trailBuf : List Nat :=
  [0x72, 0xb5, 0x4a, 0x86, 0, 0, 0, 0, 32, 0, 0, 0, 0, 0, 0, 0,
   1, 0, 0, 0, 1, 0, 0, 0, 1, 0, 0, 0, 1, 0, 0, 0, 255, 170]

/-- The same valid font buffer without the trailing byte: 33 bytes, the
buffer ends exactly at the glyph table end. -/
def exactBuf : List Nat :=
  [0x72, 0xb5, 0x4a, 0x86, 0, 0, 0, 0, 32, 0, 0, 0, 0, 0, 0, 0,
   1, 0, 0, 0, 1, 0, 0, 0, 1, 0, 0, 0, 1, 0, 0, 0, 255]

/-- Unfolding of Font.new into its cascade of checks. -/
theorem font_new_eq (data : List Nat) :
    Font.new data =
      if data.length < 32 then Except.error ParseError.UnexpectedEnd
      else if data.take 4 ≠ magicBytes then Except.error ParseError.BadMagic
      else if U32MAX < u32le data 20 * u32le data 16 then Except.error ParseError.UnexpectedEnd
      else if U32MAX < u32le data 8 + u32le data 20 * u32le data 16 then
        Except.error ParseError.UnexpectedEnd
      else if data.length < u32le data 8 + u32le data 20 * u32le data 16 then
        Except.error ParseError.UnexpectedEnd
      else Except.ok ⟨data⟩ := rfl

/-- Claim C1: for every buffer of at least 32 bytes whose first four
bytes are the magic constant and whose header fields satisfy
headersize + charsize * length ≤ buffer length, with neither the
multiplication nor the addition overflowing the 32-bit unsigned range,
construction succeeds, and width and height of the resulting font are
the little-endian 32-bit values at byte offsets 28 and 24. -/
theorem font_new_success (data : List Nat) (h32 : 32 ≤ data.length)
    (hm : data.take 4 = magicBytes)
    (hmul : u32le data 20 * u32le data 16 ≤ U32MAX)
    (hadd : u32le data 8 + u32le data 20 * u32le data 16 ≤ U32MAX)
    (hend : u32le data 8 + u32le data 20 * u32le data 16 ≤ data.length) :
    Font.new data = Except.ok ⟨data⟩ ∧
      Font.width ⟨data⟩ = u32le data 28 ∧ Font.height ⟨data⟩ = u32le data 24 := by
  refine ⟨?_, rfl, rfl⟩
  rw [font_new_eq]
  rw [if_neg (by omega), if_neg (by simp [hm]), if_neg (by omega), if_neg (by omega),
    if_neg (by omega)]

/-- Witness for claim C1 at the concrete scenario buffer of the
specification. -/
theorem font_new_success_witness :
    Font.new demoBuf = Except.ok ⟨demoBuf⟩ ∧
      Font.width ⟨demoBuf⟩ = u32le demoBuf 28 ∧ Font.height ⟨demoBuf⟩ = u32le demoBuf 24 :=
  font_new_success demoBuf (by decide) (by decide) (by decide) (by decide) (by decide)

/-- Counterexample to claim C2 as stated: badMagicOverflowBuf has 32
bytes, a charsize times length product that overflows the 32-bit range
(so the claimed iff characterization demands UnexpectedEnd), yet
construction returns BadMagic, because the magic check runs before the
overflow-checked arithmetic. -/
theorem font_new_overflow_bad_magic :
    Font.new badMagicOverflowBuf = Except.error ParseError.BadMagic ∧
      U32MAX < u32le badMagicOverflowBuf 20 * u32le badMagicOverflowBuf 16 ∧
      32 ≤ badMagicOverflowBuf.length := by decide

/-- Claim C2 (amended): UnexpectedEnd exactly when the buffer is shorter
than 32 bytes, or the magic matches and the overflow-checked glyph-table
end computation overflows or exceeds the buffer length; BadMagic exactly
when the buffer has at least 32 bytes and the magic differs.  The
amendment restricts the overflow and bounds disjuncts of UnexpectedEnd
to buffers whose magic matches, since the magic check runs first. -/
theorem font_new_error_characterization (data : List Nat) :
    (Font.new data = Except.error ParseError.UnexpectedEnd ↔
       data.length < 32 ∨ (data.take 4 = magicBytes ∧
         (U32MAX < u32le data 20 * u32le data 16 ∨
          U32MAX < u32le data 8 + u32le data 20 * u32le data 16 ∨
          data.length < u32le data 8 + u32le data 20 * u32le data 16))) ∧
    (Font.new data = Except.error ParseError.BadMagic ↔
       32 ≤ data.length ∧ ¬ data.take 4 = magicBytes) := by
  rw [font_new_eq]
  split_ifs with h1 h2 h3 h4 h5 <;> simp_all

/-- Witness for claim C2 at a concrete too-short buffer. -/
theorem font_new_error_characterization_witness :
    Font.new [0, 1, 2] = Except.error ParseError.UnexpectedEnd :=
  (font_new_error_characterization [0, 1, 2]).1.mpr (Or.inl (by decide))

/-- Claim C5: evaluation of the code at the failing input.  The glyph
view over two bytes with width 2 reports len = 2 / 2 = 1 remaining rows,
while forward stepping actually obtains 2 rows, which is also the value
of the specified formula floor(remaining bytes / ceil(width/8)).
The source divides by width instead of by the row byte count
ceil(width/8). -/
theorem glyph_len_mismatch :
    Glyph.len ⟨[0, 0], 2⟩ = 1 ∧
      (Glyph.forwardRows 2 ⟨[0, 0], 2⟩).length = 2 ∧
      (List.length [0, 0]) / ((2 + 7) / 8) = 2 := by decide

/-- A row step on an exhausted window produces nothing. -/
theorem row_next_none {r : GlyphRow} (h : r.width ≤ r.bit) : r.next = none := by
  simp [GlyphRow.next, h]

/-- A forward row step on a nonempty window produces the decoded bit at
the forward cursor and advances the cursor. -/
theorem row_next_some {r : GlyphRow} (h : r.bit < r.width) :
    r.next = some (decodeBit r.data r.bit, ⟨r.data, r.bit + 1, r.width⟩) := by
  simp only [GlyphRow.next, decodeBit]
  rw [if_neg (by omega)]

/-- A backward row step on an exhausted window produces nothing. -/
theorem row_next_back_none {r : GlyphRow} (h : r.width ≤ r.bit) : r.next_back = none := by
  simp [GlyphRow.next_back, h]

/-- A backward row step on a nonempty window produces the decoded bit
just below the width bound and shrinks the bound. -/
theorem row_next_back_some {r : GlyphRow} (h : r.bit < r.width) :
    r.next_back = some (decodeBit r.data (r.width - 1), ⟨r.data, r.bit, r.width - 1⟩) := by
  simp only [GlyphRow.next_back, decodeBit]
  rw [if_neg (by omega)]

/-- Reversing a map over range flips the index. -/
theorem reverse_map_range {α : Type} (f : Nat → α) (n : Nat) :
    ((List.range n).map f).reverse = (List.range n).map (fun k => f (n - 1 - k)) := by
  induction n with
  | zero => rfl
  | succ n ih =>
    have hR : (List.range (n + 1)).map (fun k => f (n + 1 - 1 - k)) =
        f n :: (List.range n).map (fun k => f (n - 1 - k)) := by
      rw [List.range_succ_eq_map, List.map_cons, List.map_map]
      congr 1
      exact List.map_congr_left fun k _ => by simp only [Function.comp_apply]; congr 1; omega
    rw [hR, List.range_succ, List.map_append, List.reverse_append, ih]
    simp

/-- A map over a split range is the two maps concatenated. -/
theorem map_range_add {α : Type} (f : Nat → α) (p n : Nat) :
    (List.range (p + n)).map f =
      (List.range p).map f ++ (List.range n).map (fun k => f (p + k)) := by
  induction n with
  | zero => simp
  | succ n ih =>
    rw [show p + (n + 1) = (p + n) + 1 from rfl, List.range_succ, List.map_append, ih,
      List.range_succ, List.map_append, List.append_assoc]
    rfl

/-- Mapping positional lookup over the index range reproduces a list. -/
theorem map_getD_range {α : Type} (l : List α) (dflt : α) :
    (List.range l.length).map (fun i => l.getD i dflt) = l := by
  induction l with
  | nil => rfl
  | cons a t ih =>
    rw [List.length_cons, List.range_succ_eq_map, List.map_cons, List.map_map]
    simp only [List.getD_cons_zero]
    congr 1

/-- Prepending the value at b to a shifted range map extends the range
map by one at the front. -/
theorem map_range_cons_shift {α : Type} (f : Nat → α) (b b' : Nat) (h : b < b') :
    f b :: (List.range (b' - (b + 1))).map (fun k => f (b + 1 + k)) =
      (List.range (b' - b)).map (fun k => f (b + k)) := by
  rw [show b' - b = (b' - (b + 1)) + 1 by omega, List.range_succ_eq_map, List.map_cons,
    List.map_map]
  congr 1
  exact List.map_congr_left fun k _ => by simp only [Function.comp_apply]; congr 1; omega

/-- Prepending the value just below w to a backward range map extends
the backward range map by one at the front. -/
theorem map_range_cons_back {α : Type} (f : Nat → α) (w w' : Nat) (h : w' < w) :
    f (w - 1) :: (List.range ((w - 1) - w')).map (fun k => f (w - 1 - 1 - k)) =
      (List.range (w - w')).map (fun k => f (w - 1 - k)) := by
  rw [show w - w' = ((w - 1) - w') + 1 by omega, List.range_succ_eq_map, List.map_cons,
    List.map_map]
  congr 1
  exact List.map_congr_left fun k _ => by simp only [Function.comp_apply]; congr 1; omega

/-- Characterization of the fueled forward row traversal: with enough
fuel it decodes exactly the window bit positions in order. -/
theorem forwardListAux_eq :
    ∀ (fuel : Nat) (d : List Nat) (b w : Nat), w - b ≤ fuel →
      GlyphRow.forwardListAux fuel ⟨d, b, w⟩ =
        (List.range (w - b)).map (fun k => decodeBit d (b + k)) := by
  intro fuel
  induction fuel with
  | zero =>
    intro d b w h
    rw [show w - b = 0 by omega]
    rfl
  | succ fuel ih =>
    intro d b w h
    by_cases hlt : b < w
    · rw [show GlyphRow.forwardListAux (fuel + 1) ⟨d, b, w⟩ =
            decodeBit d b :: GlyphRow.forwardListAux fuel ⟨d, b + 1, w⟩ from by
          simp [GlyphRow.forwardListAux, row_next_some (r := ⟨d, b, w⟩) hlt]]
      rw [ih d (b + 1) w (by omega)]
      exact map_range_cons_shift (decodeBit d) b w hlt
    · rw [show GlyphRow.forwardListAux (fuel + 1) ⟨d, b, w⟩ = [] from by
          simp [GlyphRow.forwardListAux, row_next_none (r := ⟨d, b, w⟩) (show w ≤ b by omega)]]
      rw [show w - b = 0 by omega]
      rfl

/-- The forward row traversal decodes the window bit positions in
order. -/
theorem forwardList_eq (d : List Nat) (b w : Nat) :
    GlyphRow.forwardList ⟨d, b, w⟩ =
      (List.range (w - b)).map (fun k => decodeBit d (b + k)) :=
  forwardListAux_eq _ d b w (le_refl _)

/-- Characterization of the fueled backward row traversal. -/
theorem backwardListAux_eq :
    ∀ (fuel : Nat) (d : List Nat) (b w : Nat), w - b ≤ fuel →
      GlyphRow.backwardListAux fuel ⟨d, b, w⟩ =
        (List.range (w - b)).map (fun k => decodeBit d (w - 1 - k)) := by
  intro fuel
  induction fuel with
  | zero =>
    intro d b w h
    rw [show w - b = 0 by omega]
    rfl
  | succ fuel ih =>
    intro d b w h
    by_cases hlt : b < w
    · rw [show GlyphRow.backwardListAux (fuel + 1) ⟨d, b, w⟩ =
            decodeBit d (w - 1) :: GlyphRow.backwardListAux fuel ⟨d, b, w - 1⟩ from by
          simp [GlyphRow.backwardListAux, row_next_back_some (r := ⟨d, b, w⟩) hlt]]
      rw [ih d b (w - 1) (by omega)]
      exact map_range_cons_back (decodeBit d) w b hlt
    · rw [show GlyphRow.backwardListAux (fuel + 1) ⟨d, b, w⟩ = [] from by
          simp [GlyphRow.backwardListAux, row_next_back_none (r := ⟨d, b, w⟩) (show w ≤ b by omega)]]
      rw [show w - b = 0 by omega]
      rfl

/-- The backward row traversal decodes the window bit positions from
the top downward. -/
theorem backwardList_eq (d : List Nat) (b w : Nat) :
    GlyphRow.backwardList ⟨d, b, w⟩ =
      (List.range (w - b)).map (fun k => decodeBit d (w - 1 - k)) :=
  backwardListAux_eq _ d b w (le_refl _)

/-- Invariant and output characterization of an arbitrary interleaved
step sequence on a row: the data never changes, the window only
narrows, the forward outputs decode the consumed front positions in
order, and the backward outputs decode the consumed back positions from
the top downward. -/
theorem row_runSteps_spec :
    ∀ (dirs : List Bool) (d : List Nat) (b w : Nat), b ≤ w →
      ∃ b' w', b ≤ b' ∧ b' ≤ w' ∧ w' ≤ w ∧
        GlyphRow.runSteps ⟨d, b, w⟩ dirs =
          (⟨d, b', w'⟩,
           (List.range (b' - b)).map (fun k => decodeBit d (b + k)),
           (List.range (w - w')).map (fun k => decodeBit d (w - 1 - k))) := by
  intro dirs
  induction dirs with
  | nil =>
    intro d b w hbw
    exact ⟨b, w, le_refl _, hbw, le_refl _, by simp [GlyphRow.runSteps]⟩
  | cons dir rest ih =>
    intro d b w hbw
    by_cases hlt : b < w
    · cases dir
      · -- backward step
        obtain ⟨b', w', h1, h2, h3, heq⟩ := ih d b (w - 1) (by omega)
        refine ⟨b', w', h1, h2, by omega, ?_⟩
        rw [show GlyphRow.runSteps ⟨d, b, w⟩ (false :: rest) =
              ((GlyphRow.runSteps ⟨d, b, w - 1⟩ rest).1,
               (GlyphRow.runSteps ⟨d, b, w - 1⟩ rest).2.1,
               decodeBit d (w - 1) :: (GlyphRow.runSteps ⟨d, b, w - 1⟩ rest).2.2) from by
            simp [GlyphRow.runSteps, row_next_back_some (r := ⟨d, b, w⟩) hlt]]
        rw [heq]
        dsimp only
        rw [map_range_cons_back (decodeBit d) w w' (by omega)]
      · -- forward step
        obtain ⟨b', w', h1, h2, h3, heq⟩ := ih d (b + 1) w hlt
        refine ⟨b', w', by omega, h2, h3, ?_⟩
        rw [show GlyphRow.runSteps ⟨d, b, w⟩ (true :: rest) =
              ((GlyphRow.runSteps ⟨d, b + 1, w⟩ rest).1,
               decodeBit d b :: (GlyphRow.runSteps ⟨d, b + 1, w⟩ rest).2.1,
               (GlyphRow.runSteps ⟨d, b + 1, w⟩ rest).2.2) from by
            simp [GlyphRow.runSteps, row_next_some (r := ⟨d, b, w⟩) hlt]]
        rw [heq]
        dsimp only
        rw [map_range_cons_shift (decodeBit d) b b' (by omega)]
    · cases dir
      · rw [show GlyphRow.runSteps ⟨d, b, w⟩ (false :: rest) =
              GlyphRow.runSteps ⟨d, b, w⟩ rest from by
            simp [GlyphRow.runSteps, row_next_back_none (r := ⟨d, b, w⟩) (show w ≤ b by omega)]]
        exact ih d b w hbw
      · rw [show GlyphRow.runSteps ⟨d, b, w⟩ (true :: rest) =
              GlyphRow.runSteps ⟨d, b, w⟩ rest from by
            simp [GlyphRow.runSteps, row_next_none (r := ⟨d, b, w⟩) (show w ≤ b by omega)]]
        exact ih d b w hbw

/-- Lookup into packRow below the byte count yields the packed byte. -/
theorem packRow_getD (l : List Bool) (j : Nat) (hj : j < (l.length + 7) / 8) :
    (packRow l).getD j 0 = packByte l j := by
  unfold packRow
  rw [List.getD_eq_getElem?_getD, List.getElem?_map, List.getElem?_range hj]
  rfl

/-- Masking a packed byte with BITS position 0 recovers bit 0. -/
theorem packByte_test0 (l : List Bool) (j : Nat) :
    ((packByte l j &&& BITS.getD 0 0) != 0) = l.getD (8 * j + 0) false := by
  simp only [Nat.add_zero]
  unfold packByte
  generalize l.getD (8 * j) false = b0
  generalize l.getD (8 * j + 1) false = b1
  generalize l.getD (8 * j + 2) false = b2
  generalize l.getD (8 * j + 3) false = b3
  generalize l.getD (8 * j + 4) false = b4
  generalize l.getD (8 * j + 5) false = b5
  generalize l.getD (8 * j + 6) false = b6
  generalize l.getD (8 * j + 7) false = b7
  revert b0 b1 b2 b3 b4 b5 b6 b7
  decide

/-- Masking a packed byte with BITS position 1 recovers bit 1. -/
theorem packByte_test1 (l : List Bool) (j : Nat) :
    ((packByte l j &&& BITS.getD 1 0) != 0) = l.getD (8 * j + 1) false := by
  unfold packByte
  generalize l.getD (8 * j) false = b0
  generalize l.getD (8 * j + 1) false = b1
  generalize l.getD (8 * j + 2) false = b2
  generalize l.getD (8 * j + 3) false = b3
  generalize l.getD (8 * j + 4) false = b4
  generalize l.getD (8 * j + 5) false = b5
  generalize l.getD (8 * j + 6) false = b6
  generalize l.getD (8 * j + 7) false = b7
  revert b0 b1 b2 b3 b4 b5 b6 b7
  decide

/-- Masking a packed byte with BITS position 2 recovers bit 2. -/
theorem packByte_test2 (l : List Bool) (j : Nat) :
    ((packByte l j &&& BITS.getD 2 0) != 0) = l.getD (8 * j + 2) false := by
  unfold packByte
  generalize l.getD (8 * j) false = b0
  generalize l.getD (8 * j + 1) false = b1
  generalize l.getD (8 * j + 2) false = b2
  generalize l.getD (8 * j + 3) false = b3
  generalize l.getD (8 * j + 4) false = b4
  generalize l.getD (8 * j + 5) false = b5
  generalize l.getD (8 * j + 6) false = b6
  generalize l.getD (8 * j + 7) false = b7
  revert b0 b1 b2 b3 b4 b5 b6 b7
  decide

/-- Masking a packed byte with BITS position 3 recovers bit 3. -/
theorem packByte_test3 (l : List Bool) (j : Nat) :
    ((packByte l j &&& BITS.getD 3 0) != 0) = l.getD (8 * j + 3) false := by
  unfold packByte
  generalize l.getD (8 * j) false = b0
  generalize l.getD (8 * j + 1) false = b1
  generalize l.getD (8 * j + 2) false = b2
  generalize l.getD (8 * j + 3) false = b3
  generalize l.getD (8 * j + 4) false = b4
  generalize l.getD (8 * j + 5) false = b5
  generalize l.getD (8 * j + 6) false = b6
  generalize l.getD (8 * j + 7) false = b7
  revert b0 b1 b2 b3 b4 b5 b6 b7
  decide

/-- Masking a packed byte with BITS position 4 recovers bit 4. -/
theorem packByte_test4 (l : List Bool) (j : Nat) :
    ((packByte l j &&& BITS.getD 4 0) != 0) = l.getD (8 * j + 4) false := by
  unfold packByte
  generalize l.getD (8 * j) false = b0
  generalize l.getD (8 * j + 1) false = b1
  generalize l.getD (8 * j + 2) false = b2
  generalize l.getD (8 * j + 3) false = b3
  generalize l.getD (8 * j + 4) false = b4
  generalize l.getD (8 * j + 5) false = b5
  generalize l.getD (8 * j + 6) false = b6
  generalize l.getD (8 * j + 7) false = b7
  revert b0 b1 b2 b3 b4 b5 b6 b7
  decide

/-- Masking a packed byte with BITS position 5 recovers bit 5. -/
theorem packByte_test5 (l : List Bool) (j : Nat) :
    ((packByte l j &&& BITS.getD 5 0) != 0) = l.getD (8 * j + 5) false := by
  unfold packByte
  generalize l.getD (8 * j) false = b0
  generalize l.getD (8 * j + 1) false = b1
  generalize l.getD (8 * j + 2) false = b2
  generalize l.getD (8 * j + 3) false = b3
  generalize l.getD (8 * j + 4) false = b4
  generalize l.getD (8 * j + 5) false = b5
  generalize l.getD (8 * j + 6) false = b6
  generalize l.getD (8 * j + 7) false = b7
  revert b0 b1 b2 b3 b4 b5 b6 b7
  decide

/-- Masking a packed byte with BITS position 6 recovers bit 6. -/
theorem packByte_test6 (l : List Bool) (j : Nat) :
    ((packByte l j &&& BITS.getD 6 0) != 0) = l.getD (8 * j + 6) false := by
  unfold packByte
  generalize l.getD (8 * j) false = b0
  generalize l.getD (8 * j + 1) false = b1
  generalize l.getD (8 * j + 2) false = b2
  generalize l.getD (8 * j + 3) false = b3
  generalize l.getD (8 * j + 4) false = b4
  generalize l.getD (8 * j + 5) false = b5
  generalize l.getD (8 * j + 6) false = b6
  generalize l.getD (8 * j + 7) false = b7
  revert b0 b1 b2 b3 b4 b5 b6 b7
  decide

/-- Masking a packed byte with BITS position 7 recovers bit 7. -/
theorem packByte_test7 (l : List Bool) (j : Nat) :
    ((packByte l j &&& BITS.getD 7 0) != 0) = l.getD (8 * j + 7) false := by
  unfold packByte
  generalize l.getD (8 * j) false = b0
  generalize l.getD (8 * j + 1) false = b1
  generalize l.getD (8 * j + 2) false = b2
  generalize l.getD (8 * j + 3) false = b3
  generalize l.getD (8 * j + 4) false = b4
  generalize l.getD (8 * j + 5) false = b5
  generalize l.getD (8 * j + 6) false = b6
  generalize l.getD (8 * j + 7) false = b7
  revert b0 b1 b2 b3 b4 b5 b6 b7
  decide

/-- Strict monotonicity of the byte index below the row byte count. -/
theorem div8_lt (x w : Nat) (h : x < w) : x / 8 < (w + 7) / 8 := by
  have h1 : x / 8 ≤ (w - 1) / 8 := Nat.div_le_div_right (by omega)
  have h2 : (w + 7) / 8 = (w - 1) / 8 + 1 := by
    rw [show w + 7 = (w - 1) + 8 by omega]
    exact Nat.add_div_right _ (by norm_num)
  omega

/-- Decoding the packed bytes at a meaningful position recovers the
original boolean. -/
theorem decodeBit_packRow (l : List Bool) (i : Nat) (hi : i < l.length) :
    decodeBit (packRow l) i = l.getD i false := by
  have hj : i / 8 < (l.length + 7) / 8 := div8_lt i l.length hi
  unfold decodeBit
  rw [packRow_getD l (i / 8) hj]
  obtain ⟨j, r, hr8, rfl⟩ : ∃ j r, r < 8 ∧ i = 8 * j + r :=
    ⟨i / 8, i % 8, Nat.mod_lt _ (by norm_num), by omega⟩
  have hdiv : (8 * j + r) / 8 = j := by
    rw [Nat.mul_add_div (by norm_num)]
    omega
  have hmod : (8 * j + r) % 8 = r := by
    rw [Nat.mul_add_mod]
    exact Nat.mod_eq_of_lt hr8
  rw [hdiv, hmod]
  interval_cases r
  · exact packByte_test0 l j
  · exact packByte_test1 l j
  · exact packByte_test2 l j
  · exact packByte_test3 l j
  · exact packByte_test4 l j
  · exact packByte_test5 l j
  · exact packByte_test6 l j
  · exact packByte_test7 l j

/-- Claim C3: for every sequence of booleans packed into bytes
most-significant-bit-first with zero padding, the forward traversal of a
row view over those bytes with width equal to the sequence length
reproduces the sequence exactly; and the traversal depends only on the
decoded values of the first width bit positions, so padding bits beyond
position width - 1 are never consulted or reported. -/
theorem row_pack_roundtrip (l : List Bool) :
    GlyphRow.forwardList ⟨packRow l, 0, l.length⟩ = l ∧
    ∀ d : List Nat, (∀ i, i < l.length → decodeBit d i = decodeBit (packRow l) i) →
      GlyphRow.forwardList ⟨d, 0, l.length⟩ = l := by
  have main : ∀ d : List Nat, (∀ i, i < l.length → decodeBit d i = l.getD i false) →
      GlyphRow.forwardList ⟨d, 0, l.length⟩ = l := by
    intro d hd
    rw [forwardList_eq]
    simp only [Nat.sub_zero]
    calc (List.range l.length).map (fun k => decodeBit d (0 + k))
        = (List.range l.length).map (fun i => l.getD i false) :=
          List.map_congr_left fun k hk => by
            rw [List.mem_range] at hk
            rw [Nat.zero_add]
            exact hd k hk
      _ = l := map_getD_range l false
  refine ⟨main (packRow l) (fun i hi => decodeBit_packRow l i hi), fun d hd => main d ?_⟩
  intro i hi
  rw [hd i hi]
  exact decodeBit_packRow l i hi

/-- Witness for claim C3 at a three-pixel row; the second component uses
a byte whose padding bits are all set, showing they are not reported. -/
theorem row_pack_roundtrip_witness :
    GlyphRow.forwardList ⟨packRow [true, false, true], 0, 3⟩ = [true, false, true] ∧
    GlyphRow.forwardList ⟨[0xBF], 0, 3⟩ = [true, false, true] := by
  refine ⟨(row_pack_roundtrip [true, false, true]).1, ?_⟩
  refine (row_pack_roundtrip [true, false, true]).2 [0xBF] ?_
  intro i hi
  have hi3 : i < 3 := by simpa using hi
  interval_cases i <;> decide

/-- A glyph step on a span shorter than one row produces nothing. -/
theorem glyph_next_none {g : Glyph} (h : g.data.length < (g.width + 7) / 8) :
    g.next = none := by
  simp [Glyph.next, h]

/-- A forward glyph step on a sufficient span takes one row off the
front. -/
theorem glyph_next_some {g : Glyph} (h : (g.width + 7) / 8 ≤ g.data.length) :
    g.next = some (⟨g.data.take ((g.width + 7) / 8), 0, g.width⟩,
                   ⟨g.data.drop ((g.width + 7) / 8), g.width⟩) := by
  simp only [Glyph.next]
  rw [if_neg (by omega)]

/-- A backward glyph step on a span shorter than one row produces
nothing. -/
theorem glyph_next_back_none {g : Glyph} (h : g.data.length < (g.width + 7) / 8) :
    g.next_back = none := by
  simp [Glyph.next_back, h]

/-- A backward glyph step on a sufficient span takes one row off the
back. -/
theorem glyph_next_back_some {g : Glyph} (h : (g.width + 7) / 8 ≤ g.data.length) :
    g.next_back = some (⟨g.data.drop (g.data.length - (g.width + 7) / 8), 0, g.width⟩,
                        ⟨g.data.take (g.data.length - (g.width + 7) / 8), g.width⟩) := by
  simp only [Glyph.next_back]
  rw [if_neg (by omega)]

/-- Claim C7: a row view produced by a glyph step has cursor 0, the
glyph width, and exactly ceil(width/8) bytes; and in every state
reachable from it by interleaved steps, whenever a further step would
produce a pixel (cursor < width bound), both the forward read index
cursor / 8 and the backward read index (width - 1) / 8 are strictly
within the byte span, so the unchecked read is in bounds. -/
theorem row_read_in_bounds (g : Glyph) (row : GlyphRow) (g' : Glyph)
    (hrow : g.next = some (row, g') ∨ g.next_back = some (row, g'))
    (dirs : List Bool) :
    row.bit = 0 ∧ row.width = g.width ∧ row.data.length = (g.width + 7) / 8 ∧
    (((GlyphRow.runSteps row dirs).1).bit < ((GlyphRow.runSteps row dirs).1).width →
      ((GlyphRow.runSteps row dirs).1).bit / 8 < ((GlyphRow.runSteps row dirs).1).data.length ∧
      (((GlyphRow.runSteps row dirs).1).width - 1) / 8 <
        ((GlyphRow.runSteps row dirs).1).data.length) := by
  obtain ⟨dd, bb, ww⟩ := row
  have hfields : bb = 0 ∧ ww = g.width ∧ dd.length = (g.width + 7) / 8 := by
    by_cases h : (g.width + 7) / 8 ≤ g.data.length
    · rcases hrow with hr | hr
      · rw [glyph_next_some h] at hr
        simp only [Option.some.injEq, Prod.mk.injEq, GlyphRow.mk.injEq] at hr
        obtain ⟨⟨hd, hb, hw⟩, _⟩ := hr
        refine ⟨hb.symm, hw.symm, ?_⟩
        rw [← hd]
        simp [List.length_take, Nat.min_eq_left h]
      · rw [glyph_next_back_some h] at hr
        simp only [Option.some.injEq, Prod.mk.injEq, GlyphRow.mk.injEq] at hr
        obtain ⟨⟨hd, hb, hw⟩, _⟩ := hr
        refine ⟨hb.symm, hw.symm, ?_⟩
        rw [← hd]
        simp only [List.length_drop]
        omega
    · rcases hrow with hr | hr
      · rw [glyph_next_none (by omega)] at hr
        exact absurd hr (by simp)
      · rw [glyph_next_back_none (by omega)] at hr
        exact absurd hr (by simp)
  obtain ⟨hb0, hww, hlen⟩ := hfields
  subst hb0
  subst hww
  refine ⟨rfl, rfl, hlen, ?_⟩
  obtain ⟨b', w', h1, h2, h3, heq⟩ := row_runSteps_spec dirs dd 0 g.width (Nat.zero_le _)
  rw [heq]
  intro hlt
  simp only at hlt ⊢
  constructor
  · rw [hlen]
    exact div8_lt b' g.width (by omega)
  · rw [hlen]
    exact div8_lt (w' - 1) g.width (by omega)

/-- Witness for claim C7 at a concrete nine-pixel row produced by a
forward glyph step, after one forward and one backward step. -/
theorem row_read_in_bounds_witness :
    ((⟨[3, 0], 0, 9⟩ : GlyphRow).bit = 0 ∧ (⟨[3, 0], 0, 9⟩ : GlyphRow).width =
        (⟨[3, 0], 9⟩ : Glyph).width ∧
      (⟨[3, 0], 0, 9⟩ : GlyphRow).data.length = ((⟨[3, 0], 9⟩ : Glyph).width + 7) / 8 ∧
      (((GlyphRow.runSteps ⟨[3, 0], 0, 9⟩ [true, false]).1).bit <
          ((GlyphRow.runSteps ⟨[3, 0], 0, 9⟩ [true, false]).1).width →
        ((GlyphRow.runSteps ⟨[3, 0], 0, 9⟩ [true, false]).1).bit / 8 <
          ((GlyphRow.runSteps ⟨[3, 0], 0, 9⟩ [true, false]).1).data.length ∧
        (((GlyphRow.runSteps ⟨[3, 0], 0, 9⟩ [true, false]).1).width - 1) / 8 <
          ((GlyphRow.runSteps ⟨[3, 0], 0, 9⟩ [true, false]).1).data.length)) :=
  row_read_in_bounds ⟨[3, 0], 9⟩ ⟨[3, 0], 0, 9⟩ ⟨[], 9⟩ (Or.inl (by decide)) [true, false]

/-- Claim C10: every forward step only increments the cursor when
cursor < width, every backward step only lowers the width bound to
width - 1 which still dominates the cursor, so the invariant
cursor ≤ width holds in every reachable state and the remaining count
width - cursor never underflows. -/
theorem row_cursor_invariant (r : GlyphRow) :
    (∀ v r', r.next = some (v, r') → r'.bit ≤ r'.width) ∧
    (∀ v r', r.next_back = some (v, r') → r'.bit ≤ r'.width) ∧
    (r.bit ≤ r.width → ∀ dirs : List Bool,
      ((GlyphRow.runSteps r dirs).1).bit ≤ ((GlyphRow.runSteps r dirs).1).width) := by
  obtain ⟨d, b, w⟩ := r
  refine ⟨?_, ?_, ?_⟩
  · intro v r' h
    by_cases hlt : b < w
    · rw [row_next_some (r := ⟨d, b, w⟩) hlt] at h
      simp only [Option.some.injEq, Prod.mk.injEq] at h
      obtain ⟨_, h2⟩ := h
      subst h2
      simp only
      omega
    · rw [row_next_none (r := ⟨d, b, w⟩) (show w ≤ b by omega)] at h
      exact absurd h (by simp)
  · intro v r' h
    by_cases hlt : b < w
    · rw [row_next_back_some (r := ⟨d, b, w⟩) hlt] at h
      simp only [Option.some.injEq, Prod.mk.injEq] at h
      obtain ⟨_, h2⟩ := h
      subst h2
      simp only
      omega
    · rw [row_next_back_none (r := ⟨d, b, w⟩) (show w ≤ b by omega)] at h
      exact absurd h (by simp)
  · intro hbw dirs
    obtain ⟨b', w', h1, h2, h3, heq⟩ := row_runSteps_spec dirs d b w hbw
    rw [heq]
    exact h2

/-- Witness for claim C10 at a concrete row after a mixed step
sequence. -/
theorem row_cursor_invariant_witness :
    ((GlyphRow.runSteps ⟨[3, 0], 0, 9⟩ [true, false, true]).1).bit ≤
      ((GlyphRow.runSteps ⟨[3, 0], 0, 9⟩ [true, false, true]).1).width :=
  (row_cursor_invariant ⟨[3, 0], 0, 9⟩).2.2 (by decide) [true, false, true]

/-- Dropping a prefix of whole rows commutes with rowAt reindexing. -/
theorem rowAt_drop (d : List Nat) (w i : Nat) :
    rowAt (d.drop ((w + 7) / 8)) w i = rowAt d w (i + 1) := by
  simp only [rowAt, List.drop_drop]
  rw [show (w + 7) / 8 + i * ((w + 7) / 8) = (i + 1) * ((w + 7) / 8) from by
    rw [Nat.succ_mul]; omega]

/-- Taking a prefix of whole rows leaves the rows below it unchanged. -/
theorem rowAt_take (d : List Nat) (w m j : Nat) (hj : j < m) :
    rowAt (d.take (m * ((w + 7) / 8))) w j = rowAt d w j := by
  simp only [rowAt, List.drop_take, List.take_take]
  have h1 : 1 * ((w + 7) / 8) ≤ (m - j) * ((w + 7) / 8) :=
    Nat.mul_le_mul_right _ (by omega)
  have h2 : (m - j) * ((w + 7) / 8) = m * ((w + 7) / 8) - j * ((w + 7) / 8) :=
    Nat.sub_mul m j ((w + 7) / 8)
  have h3 : min ((w + 7) / 8) (m * ((w + 7) / 8) - j * ((w + 7) / 8)) = (w + 7) / 8 := by
    omega
  rw [h3]

/-- Characterization of the fueled forward glyph traversal over a span
of exactly m whole rows: it produces rows 0 to m - 1 in order. -/
theorem forwardRows_eq (w : Nat) (hw : 1 ≤ (w + 7) / 8) :
    ∀ m fuel d, d.length = m * ((w + 7) / 8) → m ≤ fuel →
      Glyph.forwardRows fuel ⟨d, w⟩ = (List.range m).map (rowAt d w) := by
  intro m
  induction m with
  | zero =>
    intro fuel d hd hf
    have hnone : Glyph.next ⟨d, w⟩ = none :=
      glyph_next_none (show d.length < (w + 7) / 8 by omega)
    cases fuel with
    | zero => rfl
    | succ n =>
      rw [show Glyph.forwardRows (n + 1) ⟨d, w⟩ = [] from by
        simp [Glyph.forwardRows, hnone]]
      rfl
  | succ m ih =>
    intro fuel d hd hf
    obtain ⟨n, rfl⟩ : ∃ n, fuel = n + 1 := ⟨fuel - 1, by omega⟩
    have hlen : (w + 7) / 8 ≤ d.length := by
      have h1 : 1 * ((w + 7) / 8) ≤ (m + 1) * ((w + 7) / 8) :=
        Nat.mul_le_mul_right _ (by omega)
      rw [hd]
      simpa using h1
    rw [show Glyph.forwardRows (n + 1) ⟨d, w⟩ =
          (⟨d.take ((w + 7) / 8), 0, w⟩ : GlyphRow) ::
            Glyph.forwardRows n ⟨d.drop ((w + 7) / 8), w⟩ from by
        simp [Glyph.forwardRows, glyph_next_some (g := ⟨d, w⟩) hlen]]
    rw [ih n (d.drop ((w + 7) / 8))
      (by rw [List.length_drop, hd, Nat.succ_mul]; omega) (by omega)]
    rw [List.range_succ_eq_map, List.map_cons, List.map_map]
    congr 1
    · simp [rowAt]
    · refine List.map_congr_left fun i _ => ?_
      simp only [Function.comp_apply]
      exact rowAt_drop d w i

/-- Characterization of the fueled backward glyph traversal over a span
of exactly m whole rows: it produces rows m - 1 down to 0 in order. -/
theorem backwardRows_eq (w : Nat) (hw : 1 ≤ (w + 7) / 8) :
    ∀ m fuel d, d.length = m * ((w + 7) / 8) → m ≤ fuel →
      Glyph.backwardRows fuel ⟨d, w⟩ =
        (List.range m).map (fun i => rowAt d w (m - 1 - i)) := by
  intro m
  induction m with
  | zero =>
    intro fuel d hd hf
    have hnone : Glyph.next_back ⟨d, w⟩ = none :=
      glyph_next_back_none (show d.length < (w + 7) / 8 by omega)
    cases fuel with
    | zero => rfl
    | succ n =>
      rw [show Glyph.backwardRows (n + 1) ⟨d, w⟩ = [] from by
        simp [Glyph.backwardRows, hnone]]
      rfl
  | succ m ih =>
    intro fuel d hd hf
    obtain ⟨n, rfl⟩ : ∃ n, fuel = n + 1 := ⟨fuel - 1, by omega⟩
    have hlen : (w + 7) / 8 ≤ d.length := by
      have h1 : 1 * ((w + 7) / 8) ≤ (m + 1) * ((w + 7) / 8) :=
        Nat.mul_le_mul_right _ (by omega)
      rw [hd]
      simpa using h1
    have hsub : d.length - (w + 7) / 8 = m * ((w + 7) / 8) := by
      rw [hd, Nat.succ_mul]
      omega
    rw [show Glyph.backwardRows (n + 1) ⟨d, w⟩ =
          (⟨d.drop (d.length - (w + 7) / 8), 0, w⟩ : GlyphRow) ::
            Glyph.backwardRows n ⟨d.take (d.length - (w + 7) / 8), w⟩ from by
        simp [Glyph.backwardRows, glyph_next_back_some (g := ⟨d, w⟩) hlen]]
    rw [hsub]
    rw [ih n (d.take (m * ((w + 7) / 8)))
      (by rw [List.length_take, hd, Nat.succ_mul]; omega) (by omega)]
    rw [List.range_succ_eq_map, List.map_cons, List.map_map]
    congr 1
    · -- head row: the final whole row of the span
      simp only [rowAt]
      have hdroplen : (d.drop (m * ((w + 7) / 8))).length = (w + 7) / 8 := by
        rw [List.length_drop, hd, Nat.succ_mul]
        omega
      rw [show m + 1 - 1 - 0 = m from rfl]
      rw [List.take_of_length_le (by rw [hdroplen])]
    · refine List.map_congr_left fun i hi => ?_
      rw [List.mem_range] at hi
      simp only [Function.comp_apply]
      rw [rowAt_take d w m (m - 1 - i) (by omega)]
      congr 1
      omega

/-- Length of a whole-rows slice of a span of m whole rows. -/
theorem slice_length (d : List Nat) (w m : Nat) (hd : d.length = m * ((w + 7) / 8))
    (p q : Nat) (hpq : p ≤ q) (hqm : q ≤ m) :
    ((d.drop (p * ((w + 7) / 8))).take ((q - p) * ((w + 7) / 8))).length =
      (q - p) * ((w + 7) / 8) := by
  rw [List.length_take, List.length_drop, hd, ← Nat.sub_mul]
  exact Nat.min_eq_left (Nat.mul_le_mul_right _ (by omega))

/-- A forward glyph step on the slice of rows p..q (p < q) produces
row p and leaves the slice of rows p+1..q. -/
theorem glyph_step_slice_fwd (d : List Nat) (w m : Nat) (_hw : 1 ≤ (w + 7) / 8)
    (hd : d.length = m * ((w + 7) / 8)) (p q : Nat) (hpq : p < q) (hqm : q ≤ m) :
    Glyph.next ⟨(d.drop (p * ((w + 7) / 8))).take ((q - p) * ((w + 7) / 8)), w⟩ =
      some (rowAt d w p,
            ⟨(d.drop ((p + 1) * ((w + 7) / 8))).take ((q - (p + 1)) * ((w + 7) / 8)), w⟩) := by
  have hlen := slice_length d w m hd p q (by omega) hqm
  have hge : (w + 7) / 8 ≤
      ((d.drop (p * ((w + 7) / 8))).take ((q - p) * ((w + 7) / 8))).length := by
    rw [hlen]
    have h1 : 1 * ((w + 7) / 8) ≤ (q - p) * ((w + 7) / 8) :=
      Nat.mul_le_mul_right _ (by omega)
    omega
  rw [glyph_next_some (g := ⟨(d.drop (p * ((w + 7) / 8))).take ((q - p) * ((w + 7) / 8)), w⟩) hge]
  have h1 : ((d.drop (p * ((w + 7) / 8))).take ((q - p) * ((w + 7) / 8))).take ((w + 7) / 8) =
      (d.drop (p * ((w + 7) / 8))).take ((w + 7) / 8) := by
    rw [List.take_take]
    congr 1
    have hle : 1 * ((w + 7) / 8) ≤ (q - p) * ((w + 7) / 8) :=
      Nat.mul_le_mul_right _ (by omega)
    omega
  have h2 : ((d.drop (p * ((w + 7) / 8))).take ((q - p) * ((w + 7) / 8))).drop ((w + 7) / 8) =
      (d.drop ((p + 1) * ((w + 7) / 8))).take ((q - (p + 1)) * ((w + 7) / 8)) := by
    rw [List.drop_take, List.drop_drop]
    rw [show p * ((w + 7) / 8) + (w + 7) / 8 = (p + 1) * ((w + 7) / 8) from by
      rw [Nat.succ_mul]]
    rw [show (q - p) * ((w + 7) / 8) - (w + 7) / 8 = (q - (p + 1)) * ((w + 7) / 8) from by
      rw [show q - (p + 1) = (q - p) - 1 by omega]
      rw [show ((q - p) - 1) * ((w + 7) / 8) =
            (q - p) * ((w + 7) / 8) - 1 * ((w + 7) / 8) from Nat.sub_mul _ _ _]
      rw [Nat.one_mul]]
  rw [h1, h2]
  rfl

/-- A backward glyph step on the slice of rows p..q (p < q) produces
row q - 1 and leaves the slice of rows p..q-1. -/
theorem glyph_step_slice_bwd (d : List Nat) (w m : Nat) (hw : 1 ≤ (w + 7) / 8)
    (hd : d.length = m * ((w + 7) / 8)) (p q : Nat) (hpq : p < q) (hqm : q ≤ m) :
    Glyph.next_back ⟨(d.drop (p * ((w + 7) / 8))).take ((q - p) * ((w + 7) / 8)), w⟩ =
      some (rowAt d w (q - 1),
            ⟨(d.drop (p * ((w + 7) / 8))).take (((q - 1) - p) * ((w + 7) / 8)), w⟩) := by
  have hlen := slice_length d w m hd p q (by omega) hqm
  have hge : (w + 7) / 8 ≤
      ((d.drop (p * ((w + 7) / 8))).take ((q - p) * ((w + 7) / 8))).length := by
    rw [hlen]
    have h1 : 1 * ((w + 7) / 8) ≤ (q - p) * ((w + 7) / 8) :=
      Nat.mul_le_mul_right _ (by omega)
    omega
  rw [glyph_next_back_some
    (g := ⟨(d.drop (p * ((w + 7) / 8))).take ((q - p) * ((w + 7) / 8)), w⟩) hge]
  have hsub : ((d.drop (p * ((w + 7) / 8))).take ((q - p) * ((w + 7) / 8))).length -
      (w + 7) / 8 = ((q - p) - 1) * ((w + 7) / 8) := by
    rw [hlen]
    rw [show ((q - p) - 1) * ((w + 7) / 8) =
          (q - p) * ((w + 7) / 8) - 1 * ((w + 7) / 8) from Nat.sub_mul _ _ _]
    rw [Nat.one_mul]
  have h1 : ((d.drop (p * ((w + 7) / 8))).take ((q - p) * ((w + 7) / 8))).drop
        (((q - p) - 1) * ((w + 7) / 8)) =
      (d.drop ((q - 1) * ((w + 7) / 8))).take ((w + 7) / 8) := by
    rw [List.drop_take, List.drop_drop]
    rw [show p * ((w + 7) / 8) + ((q - p) - 1) * ((w + 7) / 8) =
          (q - 1) * ((w + 7) / 8) from by
      rw [← Nat.add_mul]
      congr 1
      omega]
    rw [show (q - p) * ((w + 7) / 8) - ((q - p) - 1) * ((w + 7) / 8) = (w + 7) / 8 from by
      rw [show ((q - p) - 1) * ((w + 7) / 8) =
            (q - p) * ((w + 7) / 8) - 1 * ((w + 7) / 8) from Nat.sub_mul _ _ _]
      have hle : 1 * ((w + 7) / 8) ≤ (q - p) * ((w + 7) / 8) :=
        Nat.mul_le_mul_right _ (by omega)
      omega]
  have h2 : ((d.drop (p * ((w + 7) / 8))).take ((q - p) * ((w + 7) / 8))).take
        (((q - p) - 1) * ((w + 7) / 8)) =
      (d.drop (p * ((w + 7) / 8))).take (((q - 1) - p) * ((w + 7) / 8)) := by
    rw [List.take_take]
    rw [show min (((q - p) - 1) * ((w + 7) / 8)) ((q - p) * ((w + 7) / 8)) =
          ((q - 1) - p) * ((w + 7) / 8) from by
      have hle : ((q - p) - 1) * ((w + 7) / 8) ≤ (q - p) * ((w + 7) / 8) :=
        Nat.mul_le_mul_right _ (by omega)
      rw [Nat.min_eq_left hle]
      congr 1
      omega]
  rw [hsub, h1, h2]
  rfl

/-- Interleaved stepping on a glyph over a span of m whole rows:
forward steps consume whole rows from the front in order, backward
steps consume whole rows from the back in order, the consumed regions
are disjoint, and the remaining state is the middle slice of rows. -/
theorem glyph_runSteps_slice (d : List Nat) (w m : Nat) (hw : 1 ≤ (w + 7) / 8)
    (hd : d.length = m * ((w + 7) / 8)) :
    ∀ (dirs : List Bool) (p q : Nat), p ≤ q → q ≤ m →
      ∃ p' q', p ≤ p' ∧ p' ≤ q' ∧ q' ≤ q ∧
        Glyph.runSteps ⟨(d.drop (p * ((w + 7) / 8))).take ((q - p) * ((w + 7) / 8)), w⟩ dirs =
          (⟨(d.drop (p' * ((w + 7) / 8))).take ((q' - p') * ((w + 7) / 8)), w⟩,
           (List.range (p' - p)).map (fun k => rowAt d w (p + k)),
           (List.range (q - q')).map (fun k => rowAt d w (q - 1 - k))) := by
  intro dirs
  induction dirs with
  | nil =>
    intro p q hpq hqm
    exact ⟨p, q, le_refl _, hpq, le_refl _, by simp [Glyph.runSteps]⟩
  | cons dir rest ih =>
    intro p q hpq hqm
    by_cases hlt : p < q
    · cases dir
      · -- backward step
        obtain ⟨p', q', k1, k2, k3, heq⟩ := ih p (q - 1) (by omega) (by omega)
        refine ⟨p', q', k1, k2, by omega, ?_⟩
        rw [show Glyph.runSteps
              ⟨(d.drop (p * ((w + 7) / 8))).take ((q - p) * ((w + 7) / 8)), w⟩ (false :: rest) =
              ((Glyph.runSteps
                  ⟨(d.drop (p * ((w + 7) / 8))).take (((q - 1) - p) * ((w + 7) / 8)), w⟩ rest).1,
               (Glyph.runSteps
                  ⟨(d.drop (p * ((w + 7) / 8))).take (((q - 1) - p) * ((w + 7) / 8)), w⟩ rest).2.1,
               rowAt d w (q - 1) ::
                 (Glyph.runSteps
                   ⟨(d.drop (p * ((w + 7) / 8))).take (((q - 1) - p) * ((w + 7) / 8)), w⟩
                   rest).2.2) from by
            simp [Glyph.runSteps, glyph_step_slice_bwd d w m hw hd p q hlt hqm]]
        rw [heq]
        dsimp only
        rw [map_range_cons_back (rowAt d w) q q' (by omega)]
      · -- forward step
        obtain ⟨p', q', k1, k2, k3, heq⟩ := ih (p + 1) q hlt hqm
        refine ⟨p', q', by omega, k2, k3, ?_⟩
        rw [show Glyph.runSteps
              ⟨(d.drop (p * ((w + 7) / 8))).take ((q - p) * ((w + 7) / 8)), w⟩ (true :: rest) =
              ((Glyph.runSteps
                  ⟨(d.drop ((p + 1) * ((w + 7) / 8))).take ((q - (p + 1)) * ((w + 7) / 8)), w⟩
                  rest).1,
               rowAt d w p ::
                 (Glyph.runSteps
                   ⟨(d.drop ((p + 1) * ((w + 7) / 8))).take ((q - (p + 1)) * ((w + 7) / 8)), w⟩
                   rest).2.1,
               (Glyph.runSteps
                  ⟨(d.drop ((p + 1) * ((w + 7) / 8))).take ((q - (p + 1)) * ((w + 7) / 8)), w⟩
                  rest).2.2) from by
            simp [Glyph.runSteps, glyph_step_slice_fwd d w m hw hd p q hlt hqm]]
        rw [heq]
        dsimp only
        rw [map_range_cons_shift (rowAt d w) p p' (by omega)]
    · have hpq' : p = q := by omega
      subst hpq'
      have hnoneF : Glyph.next ⟨([] : List Nat), w⟩ = none :=
        glyph_next_none (g := ⟨([] : List Nat), w⟩)
          (show ([] : List Nat).length < (w + 7) / 8 by simp only [List.length_nil]; omega)
      have hnoneB : Glyph.next_back ⟨([] : List Nat), w⟩ = none :=
        glyph_next_back_none (g := ⟨([] : List Nat), w⟩)
          (show ([] : List Nat).length < (w + 7) / 8 by simp only [List.length_nil]; omega)
      cases dir
      · rw [show Glyph.runSteps
              ⟨(d.drop (p * ((w + 7) / 8))).take ((p - p) * ((w + 7) / 8)), w⟩ (false :: rest) =
              Glyph.runSteps
                ⟨(d.drop (p * ((w + 7) / 8))).take ((p - p) * ((w + 7) / 8)), w⟩ rest from by
            simp [Glyph.runSteps, hnoneB]]
        exact ih p p (le_refl p) hqm
      · rw [show Glyph.runSteps
              ⟨(d.drop (p * ((w + 7) / 8))).take ((p - p) * ((w + 7) / 8)), w⟩ (true :: rest) =
              Glyph.runSteps
                ⟨(d.drop (p * ((w + 7) / 8))).take ((p - p) * ((w + 7) / 8)), w⟩ rest from by
            simp [Glyph.runSteps, hnoneF]]
        exact ih p p (le_refl p) hqm

/-- A glyph view that cannot produce a row is absorbing: any further
step sequence produces nothing and leaves the state unchanged. -/
theorem glyph_run_exhausted_id :
    ∀ (dirs : List Bool) (g : Glyph), g.data.length < (g.width + 7) / 8 →
      Glyph.runSteps g dirs = (g, [], []) := by
  intro dirs
  induction dirs with
  | nil => intro g _; rfl
  | cons dir rest ih =>
    intro g h
    cases dir
    · rw [show Glyph.runSteps g (false :: rest) = Glyph.runSteps g rest from by
        simp [Glyph.runSteps, glyph_next_back_none h]]
      exact ih g h
    · rw [show Glyph.runSteps g (true :: rest) = Glyph.runSteps g rest from by
        simp [Glyph.runSteps, glyph_next_none h]]
      exact ih g h

/-- When the row byte count is positive, an interleaved step sequence
of length at least the row count of the span exhausts the glyph view. -/
theorem glyph_run_exhausts :
    ∀ (dirs : List Bool) (g : Glyph), 1 ≤ (g.width + 7) / 8 →
      g.data.length / ((g.width + 7) / 8) ≤ dirs.length →
      ((Glyph.runSteps g dirs).1).width = g.width ∧
      ((Glyph.runSteps g dirs).1).data.length < (g.width + 7) / 8 := by
  intro dirs
  induction dirs with
  | nil =>
    intro g ha hlen
    simp only [List.length_nil, Nat.le_zero] at hlen
    exact ⟨rfl, (Nat.div_eq_zero_iff (by omega)).mp hlen⟩
  | cons dir rest ih =>
    intro g ha hlen
    simp only [List.length_cons] at hlen
    by_cases h : (g.width + 7) / 8 ≤ g.data.length
    · have hdiv : (g.data.length - (g.width + 7) / 8) / ((g.width + 7) / 8) + 1 =
          g.data.length / ((g.width + 7) / 8) := by
        rw [← Nat.add_div_right _ (show 0 < (g.width + 7) / 8 by omega),
          Nat.sub_add_cancel h]
      cases dir
      · rw [show Glyph.runSteps g (false :: rest) =
              ((Glyph.runSteps ⟨g.data.take (g.data.length - (g.width + 7) / 8), g.width⟩
                  rest).1,
               (Glyph.runSteps ⟨g.data.take (g.data.length - (g.width + 7) / 8), g.width⟩
                  rest).2.1,
               (⟨g.data.drop (g.data.length - (g.width + 7) / 8), 0, g.width⟩ : GlyphRow) ::
                 (Glyph.runSteps ⟨g.data.take (g.data.length - (g.width + 7) / 8), g.width⟩
                   rest).2.2) from by
            simp [Glyph.runSteps, glyph_next_back_some (g := g) h]]
        exact ih ⟨g.data.take (g.data.length - (g.width + 7) / 8), g.width⟩ ha
          (by simp only [List.length_take]
              rw [Nat.min_eq_left (by omega)]
              omega)
      · rw [show Glyph.runSteps g (true :: rest) =
              ((Glyph.runSteps ⟨g.data.drop ((g.width + 7) / 8), g.width⟩ rest).1,
               (⟨g.data.take ((g.width + 7) / 8), 0, g.width⟩ : GlyphRow) ::
                 (Glyph.runSteps ⟨g.data.drop ((g.width + 7) / 8), g.width⟩ rest).2.1,
               (Glyph.runSteps ⟨g.data.drop ((g.width + 7) / 8), g.width⟩ rest).2.2) from by
            simp [Glyph.runSteps, glyph_next_some (g := g) h]]
        exact ih ⟨g.data.drop ((g.width + 7) / 8), g.width⟩ ha
          (by simp only [List.length_drop]
              omega)
    · have hsmall : g.data.length < (g.width + 7) / 8 := by omega
      rw [glyph_run_exhausted_id (dir :: rest) g hsmall]
      exact ⟨rfl, hsmall⟩

/-- Frame lemma for interleaved glyph stepping on an arbitrary span:
the width never changes, the consumed bytes fit in the span, and the
remaining span is the original with one whole row dropped per forward
step from the front and per backward step from the back. -/
theorem glyph_runSteps_data :
    ∀ (dirs : List Bool) (g : Glyph),
      ((Glyph.runSteps g dirs).1).width = g.width ∧
      ((g.width + 7) / 8) * ((Glyph.runSteps g dirs).2.1).length +
        ((g.width + 7) / 8) * ((Glyph.runSteps g dirs).2.2).length ≤ g.data.length ∧
      ((Glyph.runSteps g dirs).1).data =
        (g.data.drop (((g.width + 7) / 8) * ((Glyph.runSteps g dirs).2.1).length)).take
          (g.data.length - ((g.width + 7) / 8) * ((Glyph.runSteps g dirs).2.1).length -
           ((g.width + 7) / 8) * ((Glyph.runSteps g dirs).2.2).length) := by
  intro dirs
  induction dirs with
  | nil =>
    intro g
    refine ⟨rfl, by simp [Glyph.runSteps], ?_⟩
    simp [Glyph.runSteps]
  | cons dir rest ih =>
    intro g
    by_cases h : (g.width + 7) / 8 ≤ g.data.length
    · cases dir
      · -- backward step
        rw [show Glyph.runSteps g (false :: rest) =
              ((Glyph.runSteps ⟨g.data.take (g.data.length - (g.width + 7) / 8), g.width⟩
                  rest).1,
               (Glyph.runSteps ⟨g.data.take (g.data.length - (g.width + 7) / 8), g.width⟩
                  rest).2.1,
               (⟨g.data.drop (g.data.length - (g.width + 7) / 8), 0, g.width⟩ : GlyphRow) ::
                 (Glyph.runSteps ⟨g.data.take (g.data.length - (g.width + 7) / 8), g.width⟩
                   rest).2.2) from by
            simp [Glyph.runSteps, glyph_next_back_some (g := g) h]]
        obtain ⟨ih1, ih2, ih3⟩ :=
          ih ⟨g.data.take (g.data.length - (g.width + 7) / 8), g.width⟩
        dsimp only at ih1 ih2 ih3 ⊢
        have htl : (g.data.take (g.data.length - (g.width + 7) / 8)).length =
            g.data.length - (g.width + 7) / 8 := by
          rw [List.length_take]
          omega
        rw [htl] at ih2 ih3
        simp only [List.length_cons]
        refine ⟨ih1, ?_, ?_⟩
        · rw [Nat.mul_succ]
          omega
        · rw [ih3, List.drop_take, List.take_take]
          rw [show min
                (g.data.length - (g.width + 7) / 8 -
                  (g.width + 7) / 8 * (Glyph.runSteps
                    ⟨g.data.take (g.data.length - (g.width + 7) / 8), g.width⟩ rest).2.1.length -
                  (g.width + 7) / 8 * (Glyph.runSteps
                    ⟨g.data.take (g.data.length - (g.width + 7) / 8), g.width⟩ rest).2.2.length)
                (g.data.length - (g.width + 7) / 8 -
                  (g.width + 7) / 8 * (Glyph.runSteps
                    ⟨g.data.take (g.data.length - (g.width + 7) / 8), g.width⟩ rest).2.1.length) =
              g.data.length -
                (g.width + 7) / 8 * (Glyph.runSteps
                  ⟨g.data.take (g.data.length - (g.width + 7) / 8), g.width⟩ rest).2.1.length -
                (g.width + 7) / 8 * ((Glyph.runSteps
                  ⟨g.data.take (g.data.length - (g.width + 7) / 8), g.width⟩
                  rest).2.2.length + 1) from by
            rw [Nat.mul_succ]
            omega]
      · -- forward step
        rw [show Glyph.runSteps g (true :: rest) =
              ((Glyph.runSteps ⟨g.data.drop ((g.width + 7) / 8), g.width⟩ rest).1,
               (⟨g.data.take ((g.width + 7) / 8), 0, g.width⟩ : GlyphRow) ::
                 (Glyph.runSteps ⟨g.data.drop ((g.width + 7) / 8), g.width⟩ rest).2.1,
               (Glyph.runSteps ⟨g.data.drop ((g.width + 7) / 8), g.width⟩ rest).2.2) from by
            simp [Glyph.runSteps, glyph_next_some (g := g) h]]
        obtain ⟨ih1, ih2, ih3⟩ := ih ⟨g.data.drop ((g.width + 7) / 8), g.width⟩
        dsimp only at ih1 ih2 ih3 ⊢
        have htl : (g.data.drop ((g.width + 7) / 8)).length =
            g.data.length - (g.width + 7) / 8 := List.length_drop ..
        rw [htl] at ih2 ih3
        simp only [List.length_cons]
        refine ⟨ih1, ?_, ?_⟩
        · rw [Nat.mul_succ]
          omega
        · rw [ih3, List.drop_drop]
          rw [show (g.width + 7) / 8 +
                (g.width + 7) / 8 * (Glyph.runSteps
                  ⟨g.data.drop ((g.width + 7) / 8), g.width⟩ rest).2.1.length =
              (g.width + 7) / 8 * ((Glyph.runSteps
                ⟨g.data.drop ((g.width + 7) / 8), g.width⟩ rest).2.1.length + 1) from by
            rw [Nat.mul_succ]
            omega]
          rw [show g.data.length - (g.width + 7) / 8 -
                (g.width + 7) / 8 * (Glyph.runSteps
                  ⟨g.data.drop ((g.width + 7) / 8), g.width⟩ rest).2.1.length -
                (g.width + 7) / 8 * (Glyph.runSteps
                  ⟨g.data.drop ((g.width + 7) / 8), g.width⟩ rest).2.2.length =
              g.data.length -
                (g.width + 7) / 8 * ((Glyph.runSteps
                  ⟨g.data.drop ((g.width + 7) / 8), g.width⟩ rest).2.1.length + 1) -
                (g.width + 7) / 8 * (Glyph.runSteps
                  ⟨g.data.drop ((g.width + 7) / 8), g.width⟩ rest).2.2.length from by
            rw [Nat.mul_succ]
            omega]
    · have hsmall : g.data.length < (g.width + 7) / 8 := by omega
      rw [glyph_run_exhausted_id (dir :: rest) g hsmall]
      refine ⟨rfl, by simp, ?_⟩
      simp

/-- Pixel stepping never changes the byte span of a row view. -/
theorem row_runSteps_data_const :
    ∀ (dirs : List Bool) (r : GlyphRow), ((GlyphRow.runSteps r dirs).1).data = r.data := by
  intro dirs
  induction dirs with
  | nil => intro r; rfl
  | cons dir rest ih =>
    intro r
    obtain ⟨d, b, w⟩ := r
    by_cases hlt : b < w
    · cases dir
      · rw [show GlyphRow.runSteps ⟨d, b, w⟩ (false :: rest) =
              ((GlyphRow.runSteps ⟨d, b, w - 1⟩ rest).1,
               (GlyphRow.runSteps ⟨d, b, w - 1⟩ rest).2.1,
               decodeBit d (w - 1) :: (GlyphRow.runSteps ⟨d, b, w - 1⟩ rest).2.2) from by
            simp [GlyphRow.runSteps, row_next_back_some (r := ⟨d, b, w⟩) hlt]]
        exact ih ⟨d, b, w - 1⟩
      · rw [show GlyphRow.runSteps ⟨d, b, w⟩ (true :: rest) =
              ((GlyphRow.runSteps ⟨d, b + 1, w⟩ rest).1,
               decodeBit d b :: (GlyphRow.runSteps ⟨d, b + 1, w⟩ rest).2.1,
               (GlyphRow.runSteps ⟨d, b + 1, w⟩ rest).2.2) from by
            simp [GlyphRow.runSteps, row_next_some (r := ⟨d, b, w⟩) hlt]]
        exact ih ⟨d, b + 1, w⟩
    · cases dir
      · rw [show GlyphRow.runSteps ⟨d, b, w⟩ (false :: rest) =
              GlyphRow.runSteps ⟨d, b, w⟩ rest from by
            simp [GlyphRow.runSteps, row_next_back_none (r := ⟨d, b, w⟩) (show w ≤ b by omega)]]
        exact ih ⟨d, b, w⟩
      · rw [show GlyphRow.runSteps ⟨d, b, w⟩ (true :: rest) =
              GlyphRow.runSteps ⟨d, b, w⟩ rest from by
            simp [GlyphRow.runSteps, row_next_none (r := ⟨d, b, w⟩) (show w ≤ b by omega)]]
        exact ih ⟨d, b, w⟩

/-- Positional lookup into a byte-bounded list stays below 256. -/
theorem getD_lt_of_bytes (data : List Nat) (hb : ∀ x ∈ data, x < 256) (i : Nat) :
    data.getD i 0 < 256 := by
  rcases Nat.lt_or_ge i data.length with h | h
  · rw [List.getD_eq_getElem?_getD, List.getElem?_eq_getElem h, Option.getD_some]
    exact hb _ (List.getElem_mem h)
  · rw [List.getD_eq_getElem?_getD, List.getElem?_eq_none h]
    norm_num

/-- A little-endian 32-bit read from a byte-bounded list fits in the
32-bit unsigned range. -/
theorem u32le_lt (data : List Nat) (hb : ∀ x ∈ data, x < 256) (off : Nat) :
    u32le data off < U32 := by
  have h0 := getD_lt_of_bytes data hb off
  have h1 := getD_lt_of_bytes data hb (off + 1)
  have h2 := getD_lt_of_bytes data hb (off + 2)
  have h3 := getD_lt_of_bytes data hb (off + 3)
  unfold u32le U32
  have e2 : (256 : Nat) ^ 2 = 65536 := by norm_num
  have e3 : (256 : Nat) ^ 3 = 16777216 := by norm_num
  have e32 : (2 : Nat) ^ 32 = 4294967296 := by norm_num
  rw [e2, e3, e32]
  omega

/-- Counterexample to claim C6 as stated: trailBuf is a successfully
constructed font with length 1 whose buffer has one byte beyond the
glyph table; lookup at index 1 ≥ length, with non-wrapping offset
arithmetic, returns a glyph (carved from the trailing byte) instead of
absence. -/
theorem lookup_out_of_range_present :
    Font.new trailBuf = Except.ok ⟨trailBuf⟩ ∧
      (Font.mk trailBuf).length = 1 ∧
      (Font.mk trailBuf).headersize + 1 * (Font.mk trailBuf).charsize ≤ U32MAX ∧
      (Font.mk trailBuf).get_index 1 ≠ none := by decide

/-- Claim C6 (amended): glyph lookup is total and yields absence
exactly when the wrapped byte range offset..offset+charsize is not
fully contained in the buffer; and for a successfully constructed font
over bytes whose buffer ends exactly at the glyph table end and whose
charsize is at least 1, every index at or beyond length whose offset
computation does not wrap yields absence.  The amendment adds the
no-trailing-bytes and positive-charsize conditions, forced by the
counterexample, to the out-of-range half of the claim. -/
theorem lookup_absence_amended (data : List Nat) (i : Nat) :
    ((Font.mk data).get_index i = none ↔
      ¬ ((u32le data 8 + i * u32le data 20) % U32 ≤
           ((u32le data 8 + i * u32le data 20) % U32 + u32le data 20) % U32 ∧
         ((u32le data 8 + i * u32le data 20) % U32 + u32le data 20) % U32 ≤
           data.length)) ∧
    ((∀ x ∈ data, x < 256) →
      Font.new data = Except.ok ⟨data⟩ →
      data.length = u32le data 8 + u32le data 20 * u32le data 16 →
      1 ≤ u32le data 20 →
      u32le data 16 ≤ i →
      u32le data 8 + i * u32le data 20 ≤ U32MAX →
      (Font.mk data).get_index i = none) := by
  constructor
  · simp only [Font.get_index, Font.headersize, Font.charsize, Font.width]
    split_ifs with h
    · exact iff_of_false (by simp) (not_not_intro h)
    · exact iff_of_true rfl h
  · intro hb _ hexact hc hi hnw
    have hcW : u32le data 20 < U32 := u32le_lt data hb 20
    have hUM : U32MAX + 1 = U32 := by unfold U32MAX U32; norm_num
    have hoff : (u32le data 8 + i * u32le data 20) % U32 = u32le data 8 + i * u32le data 20 :=
      Nat.mod_eq_of_lt (by omega)
    have hmul : u32le data 16 * u32le data 20 ≤ i * u32le data 20 :=
      Nat.mul_le_mul_right _ hi
    have hofflen : data.length ≤ u32le data 8 + i * u32le data 20 := by
      rw [hexact, Nat.mul_comm (u32le data 20) (u32le data 16)]
      omega
    have hcond : ¬ (u32le data 8 + i * u32le data 20 ≤
        (u32le data 8 + i * u32le data 20 + u32le data 20) % U32 ∧
        (u32le data 8 + i * u32le data 20 + u32le data 20) % U32 ≤ data.length) := by
      by_cases hcase : u32le data 8 + i * u32le data 20 + u32le data 20 < U32
      · rw [Nat.mod_eq_of_lt hcase]
        intro ⟨hA, hB⟩
        omega
      · have hwrap : (u32le data 8 + i * u32le data 20 + u32le data 20) % U32 =
            u32le data 8 + i * u32le data 20 + u32le data 20 - U32 := by
          rw [Nat.mod_eq_sub_mod (by omega)]
          exact Nat.mod_eq_of_lt (by omega)
        rw [hwrap]
        intro ⟨hA, hB⟩
        omega
    simp only [Font.get_index, Font.headersize, Font.charsize, Font.width]
    rw [hoff, if_neg hcond]

/-- Witness for claim C6 at the concrete exactBuf font (no trailing
bytes) and the out-of-range index 1. -/
theorem lookup_absence_amended_witness :
    (Font.mk exactBuf).get_index 1 = none :=
  (lookup_absence_amended exactBuf 1).2 (by decide) (by decide) (by decide) (by decide)
    (by decide) (by decide)

/-- Counterexample to claim C8 as stated: a glyph view with width 0 has
row byte count 0, so every forward step succeeds without consuming
anything: after three forward steps the state is unchanged and three
rows have been produced, and the single-step equation shows the view
steps to itself, so exhaustion is never reported. -/
theorem glyph_zero_width_nontermination :
    Glyph.next ⟨[], 0⟩ = some (⟨[], 0, 0⟩, ⟨[], 0⟩) ∧
      (Glyph.runSteps ⟨[], 0⟩ [true, true, true]).1 = ⟨[], 0⟩ ∧
      (Glyph.runSteps ⟨[], 0⟩ [true, true, true]).2.1.length = 3 := by decide

/-- Claim C8 (amended): for a glyph view of width at least 1, any
interleaved step sequence of length at least the row count
(data length divided by ceil(width/8)) exhausts the view: both step
directions then report exhaustion, and every further step sequence
leaves the state unchanged and produces nothing.  The amendment adds
the width ≥ 1 hypothesis, forced by the width-0 counterexample where
each row occupies zero bytes. -/
theorem glyph_termination_amended (g : Glyph) (hw : 1 ≤ g.width) (dirs : List Bool)
    (hlen : g.data.length / ((g.width + 7) / 8) ≤ dirs.length) :
    ((Glyph.runSteps g dirs).1).next = none ∧
    ((Glyph.runSteps g dirs).1).next_back = none ∧
    ∀ dirs' : List Bool,
      Glyph.runSteps (Glyph.runSteps g dirs).1 dirs' =
        ((Glyph.runSteps g dirs).1, [], []) := by
  have ha : 1 ≤ (g.width + 7) / 8 := by
    have h8 : 8 / 8 ≤ (g.width + 7) / 8 := Nat.div_le_div_right (by omega)
    simpa using h8
  obtain ⟨hwid, hsmall⟩ := glyph_run_exhausts dirs g ha hlen
  have hex : ((Glyph.runSteps g dirs).1).data.length <
      (((Glyph.runSteps g dirs).1).width + 7) / 8 := by
    rw [hwid]
    exact hsmall
  exact ⟨glyph_next_none hex, glyph_next_back_none hex,
    fun dirs' => glyph_run_exhausted_id dirs' _ hex⟩

/-- Witness for claim C8 at the two-row demo glyph. -/
theorem glyph_termination_amended_witness :
    ((Glyph.runSteps ⟨[128, 0], 1⟩ [true, false, true]).1).next = none ∧
      ((Glyph.runSteps ⟨[128, 0], 1⟩ [true, false, true]).1).next_back = none :=
  ⟨(glyph_termination_amended ⟨[128, 0], 1⟩ (by decide) [true, false, true] (by decide)).1,
   (glyph_termination_amended ⟨[128, 0], 1⟩ (by decide) [true, false, true] (by decide)).2.1⟩

/-- Counterexample to claim C9 as stated: on a width-0 glyph view a
forward step succeeds (a row is produced) while the raw data accessor
value is unchanged, so the value does not change after every step. -/
theorem glyph_data_unchanged_after_step :
    Glyph.next ⟨[5], 0⟩ = some (⟨[], 0, 0⟩, ⟨[5], 0⟩) ∧
      (Glyph.mk [5] 0).data = [5] := by decide

/-- Claim C9 (amended): after any interleaved step sequence on a glyph
view, the raw-bytes accessor returns exactly the original span minus
one whole row per forward step from the front and one whole row per
backward step from the back (so, whenever the row byte count
ceil(width/8) is positive, its value changes on every successful step);
whereas the raw-bytes accessor of a row view returns the full original
row byte span unchanged after any sequence of pixel steps. -/
theorem data_accessor_asymmetry (g : Glyph) (r : GlyphRow) (dirs : List Bool) :
    (((Glyph.runSteps g dirs).1).data =
      (g.data.drop (((g.width + 7) / 8) * ((Glyph.runSteps g dirs).2.1).length)).take
        (g.data.length - ((g.width + 7) / 8) * ((Glyph.runSteps g dirs).2.1).length -
         ((g.width + 7) / 8) * ((Glyph.runSteps g dirs).2.2).length)) ∧
    (((g.width + 7) / 8) * ((Glyph.runSteps g dirs).2.1).length +
      ((g.width + 7) / 8) * ((Glyph.runSteps g dirs).2.2).length ≤ g.data.length) ∧
    (1 ≤ g.width → ∀ row g', g.next = some (row, g') → g'.data ≠ g.data) ∧
    (1 ≤ g.width → ∀ row g', g.next_back = some (row, g') → g'.data ≠ g.data) ∧
    ((GlyphRow.runSteps r dirs).1).data = r.data := by
  obtain ⟨h1, h2, h3⟩ := glyph_runSteps_data dirs g
  have ha : ∀ hw : 1 ≤ g.width, 1 ≤ (g.width + 7) / 8 := fun hw => by
    have h8 : 8 / 8 ≤ (g.width + 7) / 8 := Nat.div_le_div_right (by omega)
    simpa using h8
  refine ⟨h3, h2, ?_, ?_, row_runSteps_data_const dirs r⟩
  · intro hw row g' hnext
    by_cases h : (g.width + 7) / 8 ≤ g.data.length
    · rw [glyph_next_some h] at hnext
      simp only [Option.some.injEq, Prod.mk.injEq] at hnext
      obtain ⟨_, hg'⟩ := hnext
      subst hg'
      intro hdata
      have hlen := congrArg List.length hdata
      simp only [List.length_drop] at hlen
      have := ha hw
      omega
    · rw [glyph_next_none (by omega)] at hnext
      exact absurd hnext (by simp)
  · intro hw row g' hnext
    by_cases h : (g.width + 7) / 8 ≤ g.data.length
    · rw [glyph_next_back_some h] at hnext
      simp only [Option.some.injEq, Prod.mk.injEq] at hnext
      obtain ⟨_, hg'⟩ := hnext
      subst hg'
      intro hdata
      have hlen := congrArg List.length hdata
      simp only [List.length_take] at hlen
      have := ha hw
      omega
    · rw [glyph_next_back_none (by omega)] at hnext
      exact absurd hnext (by simp)

/-- Witness for claim C9 at concrete views: a one-row glyph whose
forward step changes the accessor value, and a nine-pixel row whose
accessor is unchanged after mixed pixel steps. -/
theorem data_accessor_asymmetry_witness :
    (([] : List Nat) ≠ [7]) ∧
      ((GlyphRow.runSteps ⟨[3, 0], 0, 9⟩ [true, false]).1).data =
        (⟨[3, 0], 0, 9⟩ : GlyphRow).data :=
  ⟨(data_accessor_asymmetry ⟨[7], 1⟩ ⟨[3, 0], 0, 9⟩ [true, false]).2.2.1 (by decide)
      ⟨[7], 0, 1⟩ ⟨[], 1⟩ (by decide),
   (data_accessor_asymmetry ⟨[7], 1⟩ ⟨[3, 0], 0, 9⟩ [true, false]).2.2.2.2⟩

/-- Counterexample to claim C4 as stated: a glyph view over 3 bytes
with width 9 (rows are 2 bytes, so the span is not a whole number of
rows).  Forward traversal to exhaustion yields the row over bytes
1 and 2; backward traversal yields the row over bytes 2 and 3; the
reversal equation fails. -/
theorem glyph_reverse_counterexample :
    (Glyph.backwardRows 3 ⟨[1, 2, 3], 9⟩).reverse ≠ Glyph.forwardRows 3 ⟨[1, 2, 3], 9⟩ := by
  decide

/-- Claim C4 (amended): (1) for every row view, backward traversal to
exhaustion reversed equals forward traversal; (2) for every row view
with cursor ≤ width, any interleaved step sequence that exhausts the
view produces the forward outputs followed by the reversed backward
outputs equal to the full forward traversal, so the two directions
cover disjoint positions with no element produced twice; (3) and (4)
the same two statements for glyph views whose width is at least 1 and
whose byte span is a whole number of rows (as holds for every
well-formed glyph bitmap).  The amendment adds the whole-rows and
positive-width hypotheses to the glyph half, forced by the ragged-span
counterexample. -/
theorem traversal_reverse_amended :
    (∀ r : GlyphRow, GlyphRow.backwardList r = (GlyphRow.forwardList r).reverse) ∧
    (∀ (r : GlyphRow) (dirs : List Bool), r.bit ≤ r.width →
      ((GlyphRow.runSteps r dirs).1).width ≤ ((GlyphRow.runSteps r dirs).1).bit →
      (GlyphRow.runSteps r dirs).2.1 ++ ((GlyphRow.runSteps r dirs).2.2).reverse =
        GlyphRow.forwardList r) ∧
    (∀ (g : Glyph) (fuel : Nat), 1 ≤ g.width → ((g.width + 7) / 8) ∣ g.data.length →
      g.data.length ≤ fuel →
      (Glyph.backwardRows fuel g).reverse = Glyph.forwardRows fuel g) ∧
    (∀ (g : Glyph) (dirs : List Bool), 1 ≤ g.width → ((g.width + 7) / 8) ∣ g.data.length →
      ((Glyph.runSteps g dirs).1).data.length < (g.width + 7) / 8 →
      (Glyph.runSteps g dirs).2.1 ++ ((Glyph.runSteps g dirs).2.2).reverse =
        Glyph.forwardRows g.data.length g) := by
  refine ⟨?_, ?_, ?_, ?_⟩
  · -- pure backward reversed equals pure forward, for rows
    intro r
    obtain ⟨d, b, w⟩ := r
    rw [backwardList_eq, forwardList_eq, reverse_map_range]
    exact List.map_congr_left fun k hk => by
      rw [List.mem_range] at hk
      congr 1
      omega
  · -- interleavings that exhaust a row produce the forward traversal
    intro r dirs hbw hex
    obtain ⟨d, b, w⟩ := r
    obtain ⟨b', w', h1, h2, h3, heq⟩ := row_runSteps_spec dirs d b w hbw
    rw [heq] at hex ⊢
    dsimp only at hex ⊢
    have hbw' : b' = w' := by omega
    subst hbw'
    rw [forwardList_eq, reverse_map_range]
    rw [show (List.range (w - b)).map (fun k => decodeBit d (b + k)) =
          (List.range (b' - b)).map (fun k => decodeBit d (b + k)) ++
            (List.range (w - b')).map (fun k => decodeBit d (b + ((b' - b) + k))) from by
      rw [← map_range_add]
      congr 2
      omega]
    congr 1
    exact List.map_congr_left fun k hk => by
      rw [List.mem_range] at hk
      congr 1
      omega
  · -- pure backward reversed equals pure forward, for whole-row glyphs
    intro g fuel hw hdvd hfuel
    obtain ⟨d, w⟩ := g
    dsimp only at hw hdvd hfuel ⊢
    have ha : 1 ≤ (w + 7) / 8 := by
      have h8 : 8 / 8 ≤ (w + 7) / 8 := Nat.div_le_div_right (by omega)
      simpa using h8
    obtain ⟨m, hm⟩ := hdvd
    have hd : d.length = m * ((w + 7) / 8) := by rw [hm, Nat.mul_comm]
    have hmfuel : m ≤ fuel := by
      have hmm : m * 1 ≤ m * ((w + 7) / 8) := Nat.mul_le_mul_left _ ha
      omega
    rw [forwardRows_eq w ha m fuel d hd hmfuel, backwardRows_eq w ha m fuel d hd hmfuel,
      reverse_map_range]
    exact List.map_congr_left fun k hk => by
      rw [List.mem_range] at hk
      congr 1
      omega
  · -- interleavings that exhaust a whole-row glyph produce the rows in order
    intro g dirs hw hdvd hex
    obtain ⟨d, w⟩ := g
    dsimp only at hw hdvd hex ⊢
    have ha : 1 ≤ (w + 7) / 8 := by
      have h8 : 8 / 8 ≤ (w + 7) / 8 := Nat.div_le_div_right (by omega)
      simpa using h8
    obtain ⟨m, hm⟩ := hdvd
    have hd : d.length = m * ((w + 7) / 8) := by rw [hm, Nat.mul_comm]
    have hm' : m ≤ d.length := by
      have hmm : m * 1 ≤ m * ((w + 7) / 8) := Nat.mul_le_mul_left _ ha
      omega
    obtain ⟨p', q', k1, k2, k3, heq⟩ :=
      glyph_runSteps_slice d w m ha hd dirs 0 m (Nat.zero_le m) (le_refl m)
    have hslice0 : (d.drop (0 * ((w + 7) / 8))).take ((m - 0) * ((w + 7) / 8)) = d := by
      rw [Nat.zero_mul, List.drop_zero, Nat.sub_zero, ← hd, List.take_length]
    rw [hslice0] at heq
    rw [heq] at hex ⊢
    dsimp only at hex ⊢
    rw [slice_length d w m hd p' q' k2 k3] at hex
    have hpq : p' = q' := by
      by_contra hne
      have hq1 : 1 ≤ q' - p' := by omega
      have hge : 1 * ((w + 7) / 8) ≤ (q' - p') * ((w + 7) / 8) :=
        Nat.mul_le_mul_right _ hq1
      omega
    subst hpq
    rw [forwardRows_eq w ha m d.length d hd (by omega), reverse_map_range]
    rw [show (List.range m).map (rowAt d w) =
          (List.range p').map (rowAt d w) ++
            (List.range (m - p')).map (fun k => rowAt d w (p' + k)) from by
      rw [← map_range_add]
      congr 2
      omega]
    congr 1
    · rw [Nat.sub_zero]
      exact List.map_congr_left fun k _ => by rw [Nat.zero_add]
    · exact List.map_congr_left fun k hk => by
        rw [List.mem_range] at hk
        congr 1
        omega

/-- Witness for claim C4 at concrete inputs: a nine-pixel row traversed
backward, an exhausting mixed step sequence on a two-pixel row, a
two-row glyph traversed backward, and an exhausting mixed step sequence
on a two-row glyph. -/
theorem traversal_reverse_amended_witness :
    GlyphRow.backwardList ⟨[3, 0], 0, 9⟩ = (GlyphRow.forwardList ⟨[3, 0], 0, 9⟩).reverse ∧
    (GlyphRow.runSteps ⟨[3, 0], 0, 2⟩ [true, false]).2.1 ++
        ((GlyphRow.runSteps ⟨[3, 0], 0, 2⟩ [true, false]).2.2).reverse =
      GlyphRow.forwardList ⟨[3, 0], 0, 2⟩ ∧
    (Glyph.backwardRows 4 ⟨[1, 2, 3, 4], 9⟩).reverse = Glyph.forwardRows 4 ⟨[1, 2, 3, 4], 9⟩ ∧
    (Glyph.runSteps ⟨[1, 2, 3, 4], 9⟩ [true, false]).2.1 ++
        ((Glyph.runSteps ⟨[1, 2, 3, 4], 9⟩ [true, false]).2.2).reverse =
      Glyph.forwardRows 4 ⟨[1, 2, 3, 4], 9⟩ :=
  ⟨traversal_reverse_amended.1 ⟨[3, 0], 0, 9⟩,
   traversal_reverse_amended.2.1 ⟨[3, 0], 0, 2⟩ [true, false] (by decide) (by decide),
   traversal_reverse_amended.2.2.1 ⟨[1, 2, 3, 4], 9⟩ 4 (by decide) (by decide) (by decide),
   traversal_reverse_amended.2.2.2 ⟨[1, 2, 3, 4], 9⟩ [true, false] (by decide) (by decide)
     (by decide)⟩

end Psf2
